import Mathlib

/-!
Verification of the Bau editor grammar (src/tools/editor/bau-vscode/syntaxes/
bau.tmLanguage.json) against its natural-language specification.

The repository ships the declarative TextMate-style grammar only; the
scope-engine that interprets it (Repository / Scanner / Document Tokenizer)
is described by the specification.  The grammar data below (`bauRepository`,
`bauTopLevelPatterns`, and every regular expression) is translated from the
JSON source; the engine (`resolve`, `load`, `scanLine`, `tokenize`) is
modelled from the specification's §4 algorithm, in particular its §3
invariant that a region's end regex is evaluated against subsequent lines
only, never against the remainder of the line containing the begin match.

Lines are `List Char`; offsets are `Nat` indices into the line.
-/

/-- Character class `\d` of the grammar's regexes (ASCII digits). -/
def isDigitCh (c : Char) : Bool := '0' ≤ c && c ≤ '9'

/-- Character class `[a-zA-Z_]` used by the identifier regexes. -/
def isAlphaUnd (c : Char) : Bool :=
  ('a' ≤ c && c ≤ 'z') || ('A' ≤ c && c ≤ 'Z') || c == '_'

/-- Character class `\w` = `[a-zA-Z0-9_]`, used for word boundaries and
identifier tails. -/
def isWordCh (c : Char) : Bool := isDigitCh c || isAlphaUnd c

/-- Character class `\s` (Oniguruma default: space, tab, newline, vertical
tab, form feed, carriage return). -/
def isWsCh (c : Char) : Bool :=
  c == ' ' || c == '\t' || c == '\n' || c == '\x0b' || c == '\x0c' || c == '\r'

/-- `true` iff position `i` of the line holds a character satisfying `p`. -/
def testAt (p : Char → Bool) (l : List Char) (i : Nat) : Bool :=
  match l.get? i with
  | some c => p c
  | none => false

/-- Word-character test used by `boundary`. -/
def isWordAt (l : List Char) (i : Nat) : Bool := testAt isWordCh l i

/-- Regex word boundary `\b` at position `i`: the wordness of the character
before `i` differs from the wordness of the character at `i` (positions
outside the line count as non-word). -/
def boundary (l : List Char) (i : Nat) : Bool :=
  ((i != 0) && isWordAt l (i - 1)) != isWordAt l i

/-- End of the maximal run of characters satisfying `p` starting at `i`. -/
def runEnd (p : Char → Bool) (l : List Char) (i : Nat) : Nat :=
  i + ((l.drop i).takeWhile p).length

/-- `true` iff the literal character sequence `s` occurs at position `i`. -/
def litAt (l : List Char) (i : Nat) : List Char → Bool
  | [] => true
  | c :: cs => (l.get? i == some c) && litAt l (i + 1) cs

/-- Capture list of a regex match: `(group index, start, stop)` triples. -/
abbrev Captures : Type := List (Nat × Nat × Nat)

/-- End of an identifier `[a-zA-Z_][a-zA-Z0-9_]*` anchored at `i`, if one
starts there. -/
def identEndAt (l : List Char) (i : Nat) : Option Nat :=
  if testAt isAlphaUnd l i then some (runEnd isWordCh l i) else none

/-- Matcher for `//.*$` (rule `comment`), anchored at `i`.  Lines carry no
newline, so `.*$` spans the rest of the line. -/
def matchComment (l : List Char) (i : Nat) : Option (Nat × Captures) :=
  if litAt l i ['/', '/'] then some (l.length, []) else none

/-- Matcher for `\b(\d+(\.\d+)?)\b` (rule `number`), anchored at `i`.  The
optional fraction is taken greedily; if the trailing `\b` then fails the
regex backtracks to the integer part alone. -/
def matchNumber (l : List Char) (i : Nat) : Option (Nat × Captures) :=
  if boundary l i then
    let j := runEnd isDigitCh l i
    if i < j then
      let frac : Option Nat :=
        if testAt (fun c => c == '.') l j then
          let k := runEnd isDigitCh l (j + 1)
          if j + 1 < k then some k else none
        else none
      match frac with
      | some k =>
        if boundary l k then some (k, [(1, i, k), (2, j, k)])
        else if boundary l j then some (j, [(1, i, j)]) else none
      | none => if boundary l j then some (j, [(1, i, j)]) else none
    else none
  else none

/-- Matcher for a single literal character (the regexes `"`, `\{`, `=`). -/
def matchLit1 (c : Char) (l : List Char) (i : Nat) : Option (Nat × Captures) :=
  if l.get? i == some c then some (i + 1, []) else none

/-- Matcher for `\\.` (the string rule's escape pattern), anchored at `i`. -/
def matchEscape (l : List Char) (i : Nat) : Option (Nat × Captures) :=
  if (l.get? i == some '\\') && (l.get? (i + 1)).isSome then some (i + 2, [])
  else none

/-- Matcher for `\b(w1|w2|...)\b`: the alternatives are tried in declared
order, each with the trailing `\b` (backtracking into the alternation when
the trailing boundary fails). -/
def altWordAt (alts : List (List Char)) (l : List Char) (i : Nat) :
    Option (Nat × Captures) :=
  if boundary l i then
    match alts.find? (fun w => litAt l i w && boundary l (i + w.length)) with
    | some w => some (i + w.length, [(1, i, i + w.length)])
    | none => none
  else none

/-- Matcher for the function-declaration begin regex
`(fn)\s+([a-zA-Z_][a-zA-Z0-9_]*)(\(\))(\s*->\s*)([a-zA-Z_][a-zA-Z0-9_]*)`,
anchored at `i`. -/
def matchFnBegin (l : List Char) (i : Nat) : Option (Nat × Captures) :=
  if litAt l i ['f', 'n'] then
    let k := runEnd isWsCh l (i + 2)
    if i + 2 < k then
      match identEndAt l k with
      | some m =>
        if litAt l m ['(', ')'] then
          let q := runEnd isWsCh l (m + 2)
          if litAt l q ['-', '>'] then
            let r := runEnd isWsCh l (q + 2)
            match identEndAt l r with
            | some s =>
              some (s, [(1, i, i + 2), (2, k, m), (3, m, m + 2),
                        (4, m + 2, r), (5, r, s)])
            | none => none
          else none
        else none
      | none => none
    else none
  else none

/-- Matcher for the let-statement begin regex
`(let)\s+([a-zA-Z_][a-zA-Z0-9_]*)\s+([a-zA-Z_][a-zA-Z0-9_]*)`, anchored at
`i`. -/
def matchLetBegin (l : List Char) (i : Nat) : Option (Nat × Captures) :=
  if litAt l i ['l', 'e', 't'] then
    let k := runEnd isWsCh l (i + 3)
    if i + 3 < k then
      match identEndAt l k with
      | some m =>
        let q := runEnd isWsCh l m
        if m < q then
          match identEndAt l q with
          | some s => some (s, [(1, i, i + 3), (2, k, m), (3, q, s)])
          | none => none
        else none
      | none => none
    else none
  else none

/-- Alternatives of the `constant` rule's regex `\b(true|false)\b`. -/
def constantAlts : List (List Char) := [['t','r','u','e'], ['f','a','l','s','e']]

/-- Alternatives of the `type` rule's regex
`\b(void|int|float|string|bool)\b`. -/
def typeAlts : List (List Char) :=
  [['v','o','i','d'], ['i','n','t'], ['f','l','o','a','t'],
   ['s','t','r','i','n','g'], ['b','o','o','l']]

/-- Alternatives of the `operator` rule's regex
`\b(\+|-|\*|/|%|!|==|!=|<|<=|>|>=|&&|\|\|)\b`. -/
def operatorAlts : List (List Char) :=
  [['+'], ['-'], ['*'], ['/'], ['%'], ['!'], ['=','='], ['!','='],
   ['<'], ['<','='], ['>'], ['>','='], ['&','&'], ['|','|']]

/-- Alternatives of the `keyword` rule's regex
`\b(if|else|loop|while|return|continue|break)\b`. -/
def keywordAlts : List (List Char) :=
  [['i','f'], ['e','l','s','e'], ['l','o','o','p'], ['w','h','i','l','e'],
   ['r','e','t','u','r','n'], ['c','o','n','t','i','n','u','e'],
   ['b','r','e','a','k']]

/-- The regular expressions occurring in the grammar, one constructor per
regex string of the JSON source. -/
inductive RegexId where
  | commentR    -- `//.*$`
  | numberR     -- `\b(\d+(\.\d+)?)\b`
  | dquoteR     -- `"` (string begin and end)
  | escapeR     -- `\\.`
  | constantR   -- `\b(true|false)\b`
  | typeR       -- `\b(void|int|float|string|bool)\b`
  | operatorR   -- `\b(\+|-|\*|/|%|!|==|!=|<|<=|>|>=|&&|\|\|)\b`
  | keywordR    -- `\b(if|else|loop|while|return|continue|break)\b`
  | fnBeginR    -- function-declaration begin
  | lbraceR     -- `\{` (function-declaration end)
  | letBeginR   -- let-statement begin
  | eqR         -- `=` (let-statement end)
deriving DecidableEq

/-- Anchored-match semantics of each grammar regex: attempt a match starting
exactly at position `i`, returning the end offset and the capture spans. -/
def matchAt : RegexId → List Char → Nat → Option (Nat × Captures)
  | .commentR, l, i => matchComment l i
  | .numberR, l, i => matchNumber l i
  | .dquoteR, l, i => matchLit1 '"' l i
  | .escapeR, l, i => matchEscape l i
  | .constantR, l, i => altWordAt constantAlts l i
  | .typeR, l, i => altWordAt typeAlts l i
  | .operatorR, l, i => altWordAt operatorAlts l i
  | .keywordR, l, i => altWordAt keywordAlts l i
  | .fnBeginR, l, i => matchFnBegin l i
  | .lbraceR, l, i => matchLit1 '\x7b' l i
  | .letBeginR, l, i => matchLetBegin l i
  | .eqR, l, i => matchLit1 '=' l i

/-- Pattern, the spec's three-way variant: a single-line match bound to a
scope, a begin/end region with begin-capture bindings and inner patterns, or
a named reference into the Repository. -/
inductive Pattern where
  | simpleMatch (scope : String) (regex : RegexId)
  | beginEnd (regionScope : Option String) (beginRegex : RegexId)
      (endRegex : RegexId) (beginCaptures : List (Nat × String))
      (innerPatterns : List Pattern)
  | Include (name : String)

/-- A scoped token range inside one line: `(startOffset, stopOffset, scope)`. -/
abbrev ScopedRange : Type := Nat × Nat × String

/-- The repository: rule-group name to ordered pattern list. -/
abbrev Repository : Type := List (String × List Pattern)

/-- Look a rule group up in a repository. -/
def lookupGroup (repo : Repository) (name : String) : Option (List Pattern) :=
  match repo.find? (fun e => e.1 == name) with
  | some e => some e.2
  | none => none

/-- Grammar-load errors of the spec's error taxonomy. -/
inductive LoadError where
  | UnknownRuleGroup (name : String)
  | CyclicInclude (name : String)
deriving DecidableEq

/-- Modelled from the spec: `resolve(name)` returns the group's ordered
pattern list, failing with `UnknownRuleGroup` when the name is absent. -/
def resolve (repo : Repository) (name : String) :
    Except LoadError (List Pattern) :=
  match lookupGroup repo name with
  | some ps => Except.ok ps
  | none => Except.error (.UnknownRuleGroup name)

/-- Include names occurring directly in a pattern list (the references whose
resolution is needed to resolve the list itself). -/
def directIncludeNames (ps : List Pattern) : List String :=
  ps.filterMap (fun p => match p with | .Include n => some n | _ => none)

/-- Inner pattern list of a begin/end pattern (empty for the others). -/
def innerOf : Pattern → List Pattern
  | .beginEnd _ _ _ _ inner => inner
  | _ => []

/-- All include names occurring in a pattern list down to region-nesting
depth `d`: the direct includes, plus the includes of every begin/end
pattern's inner list, recursively. -/
def allIncludeNamesD : Nat → List Pattern → List String
  | 0, ps => directIncludeNames ps
  | d + 1, ps =>
    directIncludeNames ps ++
      (ps.map (fun p => allIncludeNamesD d (innerOf p))).flatten

/-- Modelled from the spec: resolving `name` terminates within `fuel` nested
include steps (used by `load`'s cycle detection; a cycle exhausts any fuel
bounded by the repository size). -/
def acyclicAux (repo : Repository) : Nat → String → Bool
  | 0, _ => false
  | fuel + 1, n =>
    match lookupGroup repo n with
    | none => true
    | some ps => (directIncludeNames ps).all (acyclicAux repo fuel)

/-- Modelled from the spec: `load` validates the grammar once, failing with
`UnknownRuleGroup` if any include reachable from the top-level pattern list
or the repository names an absent group, and with `CyclicInclude` if
resolving some group would require resolving itself transitively. -/
def load (repo : Repository) (topLevel : List Pattern) :
    Except LoadError Unit :=
  match (allIncludeNamesD (repo.length + 1) topLevel ++
      (repo.map (fun e => allIncludeNamesD (repo.length + 1) e.2)).flatten).find?
      (fun n => (lookupGroup repo n).isNone) with
  | some n => Except.error (.UnknownRuleGroup n)
  | none =>
    match repo.find? (fun e => !acyclicAux repo (repo.length + 1) e.1) with
    | some e => Except.error (.CyclicInclude e.1)
    | none => Except.ok ()

/-- Fuel-bounded iteration helper. -/
def iterApply (f : α → α) : Nat → α → α
  | 0, a => a
  | n + 1, a => iterApply f n (f a)

/-- One round of include expansion: each `Include` is replaced by its
group's pattern list (absent groups contribute nothing; `load` rejects them
beforehand), other patterns are kept in place. -/
def expandOnce (repo : Repository) (ps : List Pattern) : List Pattern :=
  (ps.map (fun p => match p with
    | .Include n =>
      match lookupGroup repo n with
      | some qs => qs
      | none => []
    | q => [q])).flatten

/-- `true` for an include reference. -/
def isIncludePat : Pattern → Bool
  | .Include _ => true
  | _ => false

/-- Resolve every include in a pattern list against the repository, to the
flat ordered list of concrete patterns the Scanner evaluates. -/
def resolveAll (repo : Repository) (ps : List Pattern) : List Pattern :=
  (iterApply (expandOnce repo) (repo.length + 1) ps).filter
    (fun p => !isIncludePat p)

/-- A regex match found in a line: start offset, stop offset, captures. -/
structure MatchInfo where
  start : Nat
  stop : Nat
  caps : List (Nat × Nat × Nat)

/-- First match of regex `r` at a position `≥ i`, scanning left to right.
`fuel` counts the candidate start positions still to try. -/
def findFromAux (r : RegexId) (l : List Char) : Nat → Nat → Option MatchInfo
  | 0, _ => none
  | fuel + 1, i =>
    match matchAt r l i with
    | some (j, caps) => some ⟨i, j, caps⟩
    | none => if i < l.length then findFromAux r l fuel (i + 1) else none

/-- Leftmost match of regex `r` starting at or after position `i`. -/
def findFrom (r : RegexId) (l : List Char) (i : Nat) : Option MatchInfo :=
  findFromAux r l (l.length + 1 - i) i

/-- A match candidate of the Scanner: either an ordinary active pattern, or
the pop-check of the innermost open region (its end regex). -/
inductive Cand where
  | pat (p : Pattern)
  | endOf (p : Pattern)

/-- Modelled from the spec (§4.2 steps 1, 4, 6): the Scanner's candidate
list.  With an empty stack it is the resolved top-level list.  Inside a
region it is the region's resolved inner patterns, preceded by the region's
end-regex pop-check — except on the line that opened the region (`pushed =
true`), where per the §3 invariant the end regex is not evaluated. -/
def activeCands (repo : Repository) (topLevel : List Pattern)
    (stack : List Pattern) (pushed : Bool) : List Cand :=
  match stack with
  | [] => (resolveAll repo topLevel).map Cand.pat
  | top :: _ =>
    let inner := (resolveAll repo (innerOf top)).map Cand.pat
    if pushed then inner else Cand.endOf top :: inner

/-- Leftmost match of a candidate starting at or after `i` (an unresolved
include and a malformed pop-check never match). -/
def candFindFrom (line : List Char) (i : Nat) : Cand → Option MatchInfo
  | .pat (.simpleMatch _ r) => findFrom r line i
  | .pat (.beginEnd _ rb _ _ _) => findFrom rb line i
  | .pat (.Include _) => none
  | .endOf (.beginEnd _ _ re _ _) => findFrom re line i
  | .endOf _ => none

/-- Modelled from the spec (§4.2 step 2): among the candidates that match,
select the one whose match starts at the smallest offset; on equal starts
the candidate appearing earlier in the list wins. -/
def bestMatch (line : List Char) (i : Nat) : List Cand →
    Option (Cand × MatchInfo)
  | [] => none
  | c :: cs =>
    match candFindFrom line i c, bestMatch line i cs with
    | some m, some r => if m.start ≤ r.2.start then some (c, m) else some r
    | some m, none => some (c, m)
    | none, r => r

/-- Capture ranges of a begin match: each bound capture group, in the
declared binding order, becomes one ScopedRange. -/
def captureRanges (bindings : List (Nat × String))
    (caps : List (Nat × Nat × Nat)) : List ScopedRange :=
  bindings.filterMap (fun b =>
    match caps.find? (fun t => t.1 == b.1) with
    | some t => some ((t.2.1, t.2.2, b.2) : ScopedRange)
    | none => none)

/-- Modelled from the spec (§4.2): the Scanner's left-to-right loop over one
line.  `i` is the cursor, `stack` the region stack, `pushed` records whether
the top region was opened on this line (suppressing its end check per the §3
invariant).  `fuel` bounds the iterations; `none` means fuel ran out. -/
def scanLineLoop (repo : Repository) (topLevel : List Pattern) :
    Nat → List Char → Nat → List Pattern → Bool →
    Option (List ScopedRange × List Pattern)
  | 0, _, _, _, _ => none
  | fuel + 1, line, i, stack, pushed =>
    match bestMatch line i (activeCands repo topLevel stack pushed) with
    | none => some ([], stack)
    | some (c, m) =>
      match c with
      | .pat (.simpleMatch scope _) =>
        (scanLineLoop repo topLevel fuel line m.stop stack pushed).map
          (fun r => (((m.start, m.stop, scope) : ScopedRange) :: r.1, r.2))
      | .pat (.beginEnd rs rb re bc inner) =>
        (scanLineLoop repo topLevel fuel line m.stop
            (Pattern.beginEnd rs rb re bc inner :: stack) true).map
          (fun r => (captureRanges bc m.caps ++ r.1, r.2))
      | .endOf _ =>
        scanLineLoop repo topLevel fuel line m.stop stack.tail pushed
      | .pat (.Include _) => some ([], stack)

/-- Modelled from the spec (§4.2): `scanLine(lineText, regionStack) ->
(scopedRanges, newRegionStack)`.  Fuel `line.length + 1` always suffices
because every grammar regex match advances the cursor. -/
def scanLine (repo : Repository) (topLevel : List Pattern)
    (line : List Char) (stack : List Pattern) :
    List ScopedRange × List Pattern :=
  (scanLineLoop repo topLevel (line.length + 1) line 0 stack false).getD
    ([], stack)

/-! The Bau grammar's rule data, translated entry by entry from
bau.tmLanguage.json. -/

/-- `comment` rule: `//.*$` scoped `comment.line.bau`. -/
def commentPattern : Pattern := .simpleMatch "comment.line.bau" .commentR

/-- `number` rule: `\b(\d+(\.\d+)?)\b` scoped `constant.numeric.bau`. -/
def numberPattern : Pattern := .simpleMatch "constant.numeric.bau" .numberR

/-- Escape pattern inside the string region: `\\.` scoped
`constant.character.escape.bau`. -/
def escapePattern : Pattern :=
  .simpleMatch "constant.character.escape.bau" .escapeR

/-- `string` rule: begin `"` end `"`, region scope `string.quoted.double.bau`,
inner escape pattern, no begin captures. -/
def stringPattern : Pattern :=
  .beginEnd (some "string.quoted.double.bau") .dquoteR .dquoteR []
    [escapePattern]

/-- `constant` rule: `\b(true|false)\b` scoped `constant.language.bau`. -/
def constantPattern : Pattern := .simpleMatch "constant.language.bau" .constantR

/-- `type` rule: `\b(void|int|float|string|bool)\b` scoped
`storage.type.bau`. -/
def typePattern : Pattern := .simpleMatch "storage.type.bau" .typeR

/-- `operator` rule scoped `keyword.operator.bau`. -/
def operatorPattern : Pattern := .simpleMatch "keyword.operator.bau" .operatorR

/-- `keyword` rule: `\b(if|else|loop|while|return|continue|break)\b` scoped
`keyword.control.bau`. -/
def keywordPattern : Pattern := .simpleMatch "keyword.control.bau" .keywordR

/-- `function-declaration` rule: begin/end region, end `\{`, begin captures
1 → `keyword.other.fn.bau`, 2 → `entity.name.function.bau`,
5 → `entity.name.type.bau`; no region scope, no inner patterns. -/
def functionDeclaration : Pattern :=
  .beginEnd none .fnBeginR .lbraceR
    [(1, "keyword.other.fn.bau"), (2, "entity.name.function.bau"),
     (5, "entity.name.type.bau")] []

/-- `let-statement` rule: begin/end region, end `=`, begin captures
1 → `keyword.other.let.bau`, 2 → `entity.name.type.bau`,
3 → `variable.name.bau`; no region scope, no inner patterns. -/
def letStatement : Pattern :=
  .beginEnd none .letBeginR .eqR
    [(1, "keyword.other.let.bau"), (2, "entity.name.type.bau"),
     (3, "variable.name.bau")] []

/-- The grammar's repository, in the source's declaration order. -/
def bauRepository : Repository :=
  [("comment", [commentPattern]),
   ("number", [numberPattern]),
   ("string", [stringPattern]),
   ("constant", [constantPattern]),
   ("type", [typePattern]),
   ("operator", [operatorPattern]),
   ("keyword", [keywordPattern]),
   ("function-declaration", [functionDeclaration]),
   ("let-statement", [letStatement])]

/-- The grammar's top-level pattern list, in the source's declared order. -/
def bauTopLevelPatterns : List Pattern :=
  [.Include "comment", .Include "function-declaration",
   .Include "let-statement", .Include "number", .Include "string",
   .Include "constant", .Include "keyword"]

/-- The Bau Scanner: `scanLine` specialised to the Bau grammar. -/
def bauScanLine (line : List Char) (stack : List Pattern) :
    List ScopedRange × List Pattern :=
  scanLine bauRepository bauTopLevelPatterns line stack

/-- Modelled from the spec (§4.3): the Document Tokenizer's line loop,
threading the region stack from line to line. -/
def tokenizeLoop : List (List Char) → Nat → List Pattern →
    List (Nat × List ScopedRange)
  | [], _, _ => []
  | l :: ls, idx, stack =>
    let r := bauScanLine l stack
    (idx, r.1) :: tokenizeLoop ls (idx + 1) r.2

/-- Modelled from the spec (§4.3): `tokenize(lines)` drives the Scanner
across every line in order starting from the empty region stack. -/
def tokenize (lines : List (List Char)) : List (Nat × List ScopedRange) :=
  tokenizeLoop lines 0 []

/-- The begin/end patterns among the repository's entries, in declaration
order. -/
def isBeginEndPat : Pattern → Bool
  | .beginEnd _ _ _ _ _ => true
  | _ => false

/-- All begin/end patterns of the Bau repository, in declaration order. -/
def repoBeginEnds : List Pattern :=
  ((bauRepository.map (fun e => e.2)).flatten).filter isBeginEndPat

/-- Region scope of a begin/end pattern (`name` field of the JSON rule). -/
def regionScopeOf : Pattern → Option String
  | .beginEnd rs _ _ _ _ => rs
  | _ => none

/-- The concrete patterns of the Bau grammar that can ever be active during
a scan started from the empty region stack: the seven top-level patterns
plus the string region's inner escape pattern. -/
def grammarPat (p : Pattern) : Prop :=
  p = commentPattern ∨ p = functionDeclaration ∨ p = letStatement ∨
  p = numberPattern ∨ p = stringPattern ∨ p = constantPattern ∨
  p = keywordPattern ∨ p = escapePattern

/-! Helper lemmas about positions, runs and literals. -/

theorem takeWhileLen_le (p : Char → Bool) :
    ∀ l : List Char, (l.takeWhile p).length ≤ l.length := by
  intro l
  induction l with
  | nil => simp
  | cons a t ih =>
    by_cases h : p a
    · simp [List.takeWhile_cons, h]; exact ih
    · simp [List.takeWhile_cons, h]

theorem get?_some_lt {l : List Char} {i : Nat} {c : Char}
    (h : l.get? i = some c) : i < l.length := by
  by_contra hlt
  rw [List.get?_eq_none.mpr (Nat.le_of_not_lt hlt)] at h
  exact Option.noConfusion h

theorem drop_cons_of_get? :
    ∀ (l : List Char) (i : Nat) (c : Char), l.get? i = some c →
      l.drop i = c :: l.drop (i + 1) := by
  intro l
  induction l with
  | nil => intro i c h; simp at h
  | cons a t ih =>
    intro i c h
    cases i with
    | zero => simp at h; subst h; simp
    | succ n =>
      simp only [List.get?_cons_succ] at h
      simpa using ih n c h

theorem runEnd_ge (p : Char → Bool) (l : List Char) (i : Nat) :
    i ≤ runEnd p l i := Nat.le_add_right _ _

theorem runEnd_le (p : Char → Bool) {l : List Char} {i : Nat}
    (h : i ≤ l.length) : runEnd p l i ≤ l.length := by
  have h1 : ((l.drop i).takeWhile p).length ≤ (l.drop i).length :=
    takeWhileLen_le p _
  have h2 : (l.drop i).length = l.length - i := List.length_drop i l
  unfold runEnd
  omega

theorem runEnd_gt {p : Char → Bool} {l : List Char} {i : Nat}
    (h : testAt p l i = true) : i + 1 ≤ runEnd p l i := by
  unfold testAt at h
  split at h
  case h_2 => exact absurd h (by simp)
  case h_1 c hc =>
    have hd := drop_cons_of_get? l i c hc
    unfold runEnd
    rw [hd, List.takeWhile_cons_of_pos h]
    simp only [List.length_cons]
    omega

theorem runEnd_lt_imp {p : Char → Bool} {l : List Char} {i : Nat}
    (h : i < runEnd p l i) : i < l.length ∧ runEnd p l i ≤ l.length := by
  have h1 : ((l.drop i).takeWhile p).length ≤ (l.drop i).length :=
    takeWhileLen_le p _
  have h2 : (l.drop i).length = l.length - i := List.length_drop i l
  unfold runEnd at h ⊢
  omega

theorem litAt_split {l : List Char} {i : Nat} {c : Char} {cs : List Char}
    (h : litAt l i (c :: cs) = true) :
    l.get? i = some c ∧ litAt l (i + 1) cs = true := by
  unfold litAt at h
  constructor
  · cases hb : (l.get? i == some c) with
    | false => rw [hb] at h; simp at h
    | true => exact eq_of_beq hb
  · cases hb : litAt l (i + 1) cs with
    | false => rw [hb] at h; simp at h
    | true => rfl

theorem litAt_bound :
    ∀ (s : List Char) (l : List Char) (i : Nat), litAt l i s = true →
      s.length ≠ 0 → i + s.length ≤ l.length := by
  intro s
  induction s with
  | nil => intro l i _ hne; simp at hne
  | cons c cs ih =>
    intro l i h _
    obtain ⟨h1, h2⟩ := litAt_split h
    have h3 := get?_some_lt h1
    cases cs with
    | nil => simp only [List.length_cons, List.length_nil]; omega
    | cons d ds =>
      have h4 := ih l (i + 1) h2 (by simp)
      simp only [List.length_cons] at h4 ⊢
      omega

theorem alphaUnd_word {c : Char} (h : isAlphaUnd c = true) :
    isWordCh c = true := by
  unfold isWordCh
  rw [h]
  simp

theorem testAt_mono {p q : Char → Bool} {l : List Char} {i : Nat}
    (hpq : ∀ c, p c = true → q c = true) (h : testAt p l i = true) :
    testAt q l i = true := by
  unfold testAt at h ⊢
  split at h
  case h_2 => exact absurd h (by simp)
  case h_1 c hc => rw [hc] at *; exact hpq c h

theorem identEndAt_bounds {l : List Char} {i m : Nat}
    (h : identEndAt l i = some m) : i < m ∧ m ≤ l.length := by
  unfold identEndAt at h
  split at h
  case isFalse => exact Option.noConfusion h
  case isTrue ht =>
    have h1 : testAt isWordCh l i = true := testAt_mono (fun c => alphaUnd_word) ht
    have h2 := runEnd_gt h1
    have h3 := runEnd_lt_imp (p := isWordCh) (l := l) (i := i) (by omega)
    cases h
    exact ⟨by omega, h3.2⟩

/-! Progress and bounds of every grammar regex: an anchored match never has
zero width and never reaches past the end of the line. -/

theorem matchComment_bounds {l : List Char} {i j : Nat} {caps : Captures}
    (h : matchComment l i = some (j, caps)) : i < j ∧ j ≤ l.length := by
  unfold matchComment at h
  split at h
  case isFalse => exact Option.noConfusion h
  case isTrue ht =>
    have hb := litAt_bound _ l i ht (by simp)
    simp only [List.length_cons, List.length_nil] at hb
    cases h
    omega

theorem matchNumber_bounds {l : List Char} {i j : Nat} {caps : Captures}
    (h : matchNumber l i = some (j, caps)) : i < j ∧ j ≤ l.length := by
  unfold matchNumber at h
  split at h
  case isFalse => exact Option.noConfusion h
  case isTrue =>
    simp only at h
    split at h
    case isFalse => exact Option.noConfusion h
    case isTrue hij =>
      have h1 := runEnd_lt_imp hij
      split at h
      case h_1 k hk =>
        have hk2 : runEnd isDigitCh l i + 1 < k ∧ k ≤ l.length := by
          split at hk
          case isFalse => exact Option.noConfusion hk
          case isTrue =>
            split at hk
            case isFalse => exact Option.noConfusion hk
            case isTrue hlt =>
              cases hk
              have := runEnd_lt_imp (p := isDigitCh) (l := l)
                (i := runEnd isDigitCh l i + 1) (by omega)
              omega
        split at h
        case isTrue => cases h; omega
        case isFalse =>
          split at h
          case isTrue => cases h; omega
          case isFalse => exact Option.noConfusion h
      case h_2 =>
        split at h
        case isTrue => cases h; omega
        case isFalse => exact Option.noConfusion h

theorem matchLit1_bounds {c : Char} {l : List Char} {i j : Nat}
    {caps : Captures} (h : matchLit1 c l i = some (j, caps)) :
    i < j ∧ j ≤ l.length := by
  unfold matchLit1 at h
  split at h
  case isFalse => exact Option.noConfusion h
  case isTrue ht =>
    have h1 : l.get? i = some c := eq_of_beq ht
    have h2 := get?_some_lt h1
    cases h
    omega

theorem matchEscape_bounds {l : List Char} {i j : Nat} {caps : Captures}
    (h : matchEscape l i = some (j, caps)) : i < j ∧ j ≤ l.length := by
  unfold matchEscape at h
  split at h
  case isFalse => exact Option.noConfusion h
  case isTrue ht =>
    have h1 : (l.get? (i + 1)).isSome = true := by
      cases hb : (l.get? (i + 1)).isSome with
      | false => rw [hb] at ht; simp at ht
      | true => rfl
    obtain ⟨c2, hc2⟩ := Option.isSome_iff_exists.mp h1
    have h2 := get?_some_lt hc2
    cases h
    omega

theorem altWordAt_bounds {alts : List (List Char)} {l : List Char}
    {i j : Nat} {caps : Captures}
    (halts : ∀ w ∈ alts, w.length ≠ 0)
    (h : altWordAt alts l i = some (j, caps)) : i < j ∧ j ≤ l.length := by
  unfold altWordAt at h
  split at h
  case isFalse => exact Option.noConfusion h
  case isTrue =>
    split at h
    case h_2 => exact Option.noConfusion h
    case h_1 w hw =>
      have hmem := List.mem_of_find?_eq_some hw
      have hpred := List.find?_some hw
      have hlit : litAt l i w = true := by
        cases hb : litAt l i w with
        | false => rw [hb] at hpred; simp at hpred
        | true => rfl
      have hne := halts w hmem
      have hb := litAt_bound w l i hlit hne
      cases h
      omega

theorem matchFnBegin_bounds {l : List Char} {i j : Nat} {caps : Captures}
    (h : matchFnBegin l i = some (j, caps)) : i < j ∧ j ≤ l.length := by
  unfold matchFnBegin at h
  split at h
  case isFalse => exact Option.noConfusion h
  case isTrue =>
    simp only at h
    split at h
    case isFalse => exact Option.noConfusion h
    case isTrue hk =>
      split at h
      case h_2 => exact Option.noConfusion h
      case h_1 m hm =>
        have hmb := identEndAt_bounds hm
        split at h
        case isFalse => exact Option.noConfusion h
        case isTrue hparen =>
          have hq := runEnd_ge isWsCh l (m + 2)
          split at h
          case isFalse => exact Option.noConfusion h
          case isTrue harrow =>
            have harr := litAt_bound _ l _ harrow (by simp)
            have hr := runEnd_ge isWsCh l (runEnd isWsCh l (m + 2) + 2)
            split at h
            case h_2 => exact Option.noConfusion h
            case h_1 s hs =>
              have hsb := identEndAt_bounds hs
              cases h
              omega

theorem matchLetBegin_bounds {l : List Char} {i j : Nat} {caps : Captures}
    (h : matchLetBegin l i = some (j, caps)) : i < j ∧ j ≤ l.length := by
  unfold matchLetBegin at h
  split at h
  case isFalse => exact Option.noConfusion h
  case isTrue =>
    simp only at h
    split at h
    case isFalse => exact Option.noConfusion h
    case isTrue hk =>
      split at h
      case h_2 => exact Option.noConfusion h
      case h_1 m hm =>
        have hmb := identEndAt_bounds hm
        split at h
        case isFalse => exact Option.noConfusion h
        case isTrue hq =>
          split at h
          case h_2 => exact Option.noConfusion h
          case h_1 s hs =>
            have hsb := identEndAt_bounds hs
            cases h
            omega

theorem matchAt_bounds :
    ∀ (r : RegexId) (l : List Char) (i j : Nat) (caps : Captures),
      matchAt r l i = some (j, caps) → i < j ∧ j ≤ l.length := by
  intro r l i j caps h
  cases r with
  | commentR => exact matchComment_bounds h
  | numberR => exact matchNumber_bounds h
  | dquoteR => exact matchLit1_bounds h
  | escapeR => exact matchEscape_bounds h
  | constantR => exact altWordAt_bounds (by decide) h
  | typeR => exact altWordAt_bounds (by decide) h
  | operatorR => exact altWordAt_bounds (by decide) h
  | keywordR => exact altWordAt_bounds (by decide) h
  | fnBeginR => exact matchFnBegin_bounds h
  | lbraceR => exact matchLit1_bounds h
  | letBeginR => exact matchLetBegin_bounds h
  | eqR => exact matchLit1_bounds h

/-! Properties of the leftmost-match search and of candidate selection. -/

theorem findFromAux_spec {r : RegexId} {l : List Char} :
    ∀ (fuel i : Nat) (m : MatchInfo), findFromAux r l fuel i = some m →
      i ≤ m.start ∧ matchAt r l m.start = some (m.stop, m.caps) := by
  intro fuel
  induction fuel with
  | zero => intro i m h; exact Option.noConfusion h
  | succ f ih =>
    intro i m h
    unfold findFromAux at h
    split at h
    case h_1 j caps hj =>
      cases h
      exact ⟨Nat.le_refl _, hj⟩
    case h_2 hnone =>
      split at h
      case isTrue =>
        have := ih (i + 1) m h
        exact ⟨by omega, this.2⟩
      case isFalse => exact Option.noConfusion h

theorem findFromAux_min {r : RegexId} {l : List Char} :
    ∀ (fuel i : Nat) (m : MatchInfo), findFromAux r l fuel i = some m →
      ∀ k, i ≤ k → k < m.start → matchAt r l k = none := by
  intro fuel
  induction fuel with
  | zero => intro i m h; exact Option.noConfusion h
  | succ f ih =>
    intro i m h k hik hk
    unfold findFromAux at h
    split at h
    case h_1 j caps hj =>
      cases h
      change k < i at hk
      exact absurd hk (Nat.not_lt.mpr hik)
    case h_2 hnone =>
      split at h
      case isTrue =>
        rcases Nat.eq_or_lt_of_le hik with heq | hlt
        · exact heq ▸ hnone
        · exact ih (i + 1) m h k hlt hk
      case isFalse => exact Option.noConfusion h

theorem findFrom_spec {r : RegexId} {l : List Char} {i : Nat} {m : MatchInfo}
    (h : findFrom r l i = some m) :
    i ≤ m.start ∧ matchAt r l m.start = some (m.stop, m.caps) :=
  findFromAux_spec _ i m h

theorem findFrom_bounds {r : RegexId} {l : List Char} {i : Nat}
    {m : MatchInfo} (h : findFrom r l i = some m) :
    i ≤ m.start ∧ m.start < m.stop ∧ m.stop ≤ l.length := by
  obtain ⟨h1, h2⟩ := findFrom_spec h
  have h3 := matchAt_bounds r l m.start m.stop m.caps h2
  exact ⟨h1, h3.1, h3.2⟩

theorem findFrom_min {r : RegexId} {l : List Char} {i : Nat} {m : MatchInfo}
    (h : findFrom r l i = some m) :
    ∀ k, i ≤ k → k < m.start → matchAt r l k = none :=
  findFromAux_min _ i m h

theorem candFindFrom_bounds {line : List Char} {i : Nat} {c : Cand}
    {m : MatchInfo} (h : candFindFrom line i c = some m) :
    i ≤ m.start ∧ m.start < m.stop ∧ m.stop ≤ line.length := by
  cases c with
  | pat p =>
    cases p with
    | simpleMatch s r => exact findFrom_bounds h
    | beginEnd rs rb re bc inner => exact findFrom_bounds h
    | Include n => exact Option.noConfusion h
  | endOf p =>
    cases p with
    | simpleMatch s r => exact Option.noConfusion h
    | beginEnd rs rb re bc inner => exact findFrom_bounds h
    | Include n => exact Option.noConfusion h

theorem bestMatch_none {line : List Char} {i : Nat} :
    ∀ (cs : List Cand), bestMatch line i cs = none →
      ∀ c ∈ cs, candFindFrom line i c = none := by
  intro cs
  induction cs with
  | nil => intro _ c hc; exact absurd hc (List.not_mem_nil c)
  | cons c0 cs ih =>
    intro h c hc
    unfold bestMatch at h
    cases hcf : candFindFrom line i c0 with
    | some m0 =>
      rw [hcf] at h
      cases hbm : bestMatch line i cs with
      | some r =>
        rw [hbm] at h
        change (if m0.start ≤ r.2.start then some (c0, m0) else some r) = none
          at h
        split at h <;> exact Option.noConfusion h
      | none => rw [hbm] at h; exact Option.noConfusion h
    | none =>
      rw [hcf] at h
      rcases List.mem_cons.mp hc with rfl | hmem
      · exact hcf
      · exact ih h c hmem

theorem bestMatch_spec {line : List Char} {i : Nat} :
    ∀ (cs : List Cand) (c : Cand) (m : MatchInfo),
      bestMatch line i cs = some (c, m) →
      c ∈ cs ∧ candFindFrom line i c = some m := by
  intro cs
  induction cs with
  | nil => intro c m h; exact Option.noConfusion h
  | cons c0 cs ih =>
    intro c m h
    unfold bestMatch at h
    cases hcf : candFindFrom line i c0 with
    | some m0 =>
      rw [hcf] at h
      cases hbm : bestMatch line i cs with
      | some r =>
        rw [hbm] at h
        change (if m0.start ≤ r.2.start then some (c0, m0) else some r) =
          some (c, m) at h
        split at h
        · cases h; exact ⟨List.mem_cons_self _ _, hcf⟩
        · cases h
          obtain ⟨h1, h2⟩ := ih c m hbm
          exact ⟨List.mem_cons_of_mem _ h1, h2⟩
      | none =>
        rw [hbm] at h
        change some (c0, m0) = some (c, m) at h
        cases h
        exact ⟨List.mem_cons_self _ _, hcf⟩
    | none =>
      rw [hcf] at h
      obtain ⟨h1, h2⟩ := ih c m h
      exact ⟨List.mem_cons_of_mem _ h1, h2⟩

theorem bestMatch_min {line : List Char} {i : Nat} :
    ∀ (cs : List Cand) (c : Cand) (m : MatchInfo),
      bestMatch line i cs = some (c, m) →
      ∀ c' ∈ cs, ∀ m', candFindFrom line i c' = some m' →
        m.start ≤ m'.start := by
  intro cs
  induction cs with
  | nil => intro c m h; exact Option.noConfusion h
  | cons c0 cs ih =>
    intro c m h c' hc' m' hm'
    unfold bestMatch at h
    cases hcf : candFindFrom line i c0 with
    | some m0 =>
      rw [hcf] at h
      cases hbm : bestMatch line i cs with
      | some r =>
        rw [hbm] at h
        change (if m0.start ≤ r.2.start then some (c0, m0) else some r) =
          some (c, m) at h
        split at h
        case isTrue hle =>
          cases h
          rcases List.mem_cons.mp hc' with rfl | hmem
          · rw [hcf] at hm'; cases hm'; exact Nat.le_refl _
          · exact Nat.le_trans hle (ih r.1 r.2 (by rw [hbm]) c' hmem m' hm')
        case isFalse hgt =>
          cases h
          rcases List.mem_cons.mp hc' with rfl | hmem
          · rw [hcf] at hm'; cases hm'
            exact Nat.le_of_lt (Nat.lt_of_not_le hgt)
          · exact ih c m (by rw [hbm]) c' hmem m' hm'
      | none =>
        rw [hbm] at h
        change some (c0, m0) = some (c, m) at h
        cases h
        rcases List.mem_cons.mp hc' with rfl | hmem
        · rw [hcf] at hm'; cases hm'; exact Nat.le_refl _
        · rw [bestMatch_none cs hbm c' hmem] at hm'
          exact Option.noConfusion hm'
    | none =>
      rw [hcf] at h
      rcases List.mem_cons.mp hc' with rfl | hmem
      · rw [hcf] at hm'; exact Option.noConfusion hm'
      · exact ih c m h c' hmem m' hm'

theorem bestMatch_tie {line : List Char} {i : Nat} :
    ∀ (cs : List Cand) (c : Cand) (m : MatchInfo),
      bestMatch line i cs = some (c, m) →
      ∃ k, cs.get? k = some c ∧
        ∀ j c' m', j < k → cs.get? j = some c' →
          candFindFrom line i c' = some m' → m.start < m'.start := by
  intro cs
  induction cs with
  | nil => intro c m h; exact Option.noConfusion h
  | cons c0 cs ih =>
    intro c m h
    unfold bestMatch at h
    cases hcf : candFindFrom line i c0 with
    | some m0 =>
      rw [hcf] at h
      cases hbm : bestMatch line i cs with
      | some r =>
        rw [hbm] at h
        change (if m0.start ≤ r.2.start then some (c0, m0) else some r) =
          some (c, m) at h
        split at h
        case isTrue hle =>
          cases h
          exact ⟨0, rfl, fun j c' m' hj _ _ => absurd hj (Nat.not_lt_zero j)⟩
        case isFalse hgt =>
          cases h
          obtain ⟨k, hk, hj⟩ := ih c m hbm
          refine ⟨k + 1, by simpa using hk, ?_⟩
          intro j c' m' hjk hget hfind
          cases j with
          | zero =>
            simp only [List.get?_cons_zero] at hget
            cases hget
            rw [hcf] at hfind
            cases hfind
            exact Nat.lt_of_not_le hgt
          | succ j' =>
            simp only [List.get?_cons_succ] at hget
            exact hj j' c' m' (by omega) hget hfind
      | none =>
        rw [hbm] at h
        change some (c0, m0) = some (c, m) at h
        cases h
        exact ⟨0, rfl, fun j c' m' hj _ _ => absurd hj (Nat.not_lt_zero j)⟩
    | none =>
      rw [hcf] at h
      obtain ⟨k, hk, hj⟩ := ih c m h
      refine ⟨k + 1, by simpa using hk, ?_⟩
      intro j c' m' hjk hget hfind
      cases j with
      | zero =>
        simp only [List.get?_cons_zero] at hget
        cases hget
        rw [hcf] at hfind
        exact Option.noConfusion hfind
      | succ j' =>
        simp only [List.get?_cons_succ] at hget
        exact hj j' c' m' (by omega) hget hfind

/-! Scanner-loop lemmas: termination fuel and region-stack behaviour. -/

theorem scanLineLoop_suff (repo : Repository) (topLevel : List Pattern) :
    ∀ (fuel : Nat) (line : List Char) (i : Nat) (stack : List Pattern)
      (pushed : Bool), i ≤ line.length → line.length + 1 - i ≤ fuel →
      scanLineLoop repo topLevel fuel line i stack pushed ≠ none := by
  intro fuel
  induction fuel with
  | zero => intro line i stack pushed hi hf; omega
  | succ f ih =>
    intro line i stack pushed hi hf
    unfold scanLineLoop
    cases hbm : bestMatch line i (activeCands repo topLevel stack pushed) with
    | none => simp
    | some cm =>
      obtain ⟨c, m⟩ := cm
      obtain ⟨hmem, hfind⟩ := bestMatch_spec _ c m hbm
      obtain ⟨h1, h2, h3⟩ := candFindFrom_bounds hfind
      have hrec : ∀ (st : List Pattern) (pu : Bool),
          scanLineLoop repo topLevel f line m.stop st pu ≠ none :=
        fun st pu => ih line m.stop st pu (by omega) (by omega)
      cases c with
      | pat p =>
        cases p with
        | simpleMatch scope r =>
          cases hr : scanLineLoop repo topLevel f line m.stop stack pushed with
          | none => exact absurd hr (hrec _ _)
          | some v => simp [hr]
        | beginEnd rs rb re bc inner =>
          cases hr : scanLineLoop repo topLevel f line m.stop
              (Pattern.beginEnd rs rb re bc inner :: stack) true with
          | none => exact absurd hr (hrec _ _)
          | some v => simp [hr]
        | Include n => simp
      | endOf p => exact hrec _ _

theorem activeCands_pushed_pat (repo : Repository) (topLevel : List Pattern)
    (stack : List Pattern) :
    ∀ c ∈ activeCands repo topLevel stack true, ∃ p, c = Cand.pat p := by
  intro c hc
  cases stack with
  | nil =>
    simp only [activeCands, List.mem_map] at hc
    obtain ⟨p, _, hp⟩ := hc
    exact ⟨p, hp.symm⟩
  | cons top rest =>
    simp only [activeCands, if_pos, List.mem_map] at hc
    obtain ⟨p, _, hp⟩ := hc
    exact ⟨p, hp.symm⟩

theorem scanLineLoop_pushed_suffix (repo : Repository)
    (topLevel : List Pattern) :
    ∀ (fuel : Nat) (line : List Char) (i : Nat) (stack : List Pattern)
      (rs : List ScopedRange) (st : List Pattern),
      scanLineLoop repo topLevel fuel line i stack true = some (rs, st) →
      stack.IsSuffix st := by
  intro fuel
  induction fuel with
  | zero => intro line i stack rs st h; exact Option.noConfusion h
  | succ f ih =>
    intro line i stack rs st h
    unfold scanLineLoop at h
    cases hbm : bestMatch line i (activeCands repo topLevel stack true) with
    | none =>
      rw [hbm] at h
      cases h
      exact List.suffix_refl _
    | some cm =>
      obtain ⟨c, m⟩ := cm
      rw [hbm] at h
      obtain ⟨hmem, _⟩ := bestMatch_spec _ c m hbm
      cases c with
      | pat p =>
        cases p with
        | simpleMatch scope r =>
          change Option.map
              (fun r => (((m.start, m.stop, scope) : ScopedRange) :: r.1, r.2))
              (scanLineLoop repo topLevel f line m.stop stack true) =
            some (rs, st) at h
          obtain ⟨v, hv, hfv⟩ := Option.map_eq_some'.mp h
          have hst : st = v.2 := by
            have := congrArg Prod.snd hfv
            simpa using this.symm
          exact hst ▸ ih line m.stop stack v.1 v.2 (by rw [hv])
        | beginEnd rsc rb re bc inner =>
          change Option.map
              (fun r => (captureRanges bc m.caps ++ r.1, r.2))
              (scanLineLoop repo topLevel f line m.stop
                (Pattern.beginEnd rsc rb re bc inner :: stack) true) =
            some (rs, st) at h
          obtain ⟨v, hv, hfv⟩ := Option.map_eq_some'.mp h
          have hst : st = v.2 := by
            have := congrArg Prod.snd hfv
            simpa using this.symm
          exact hst ▸ List.IsSuffix.trans
            (List.suffix_cons (Pattern.beginEnd rsc rb re bc inner) stack)
            (ih line m.stop _ v.1 v.2 (by rw [hv]))
        | Include n =>
          change some (([] : List ScopedRange), stack) = some (rs, st) at h
          cases h
          exact List.suffix_refl _
      | endOf p =>
        obtain ⟨q, hq⟩ := activeCands_pushed_pat repo topLevel stack _ hmem
        exact Cand.noConfusion hq

/-! Whitespace-only lines: no grammar regex matches anywhere in them. -/

theorem ws_not_word : ∀ c : Char, isWsCh c = true → isWordCh c = false := by
  intro c h
  unfold isWsCh at h
  simp only [Bool.or_eq_true, beq_iff_eq] at h
  rcases h with ((((h | h) | h) | h) | h) | h <;> subst h <;> decide

theorem wsline_get? {line : List Char} (hall : line.all isWsCh = true)
    {i : Nat} {c : Char} (h : line.get? i = some c) : isWsCh c = true :=
  List.all_eq_true.mp hall c (List.get?_mem h)

theorem wsline_isWordAt {line : List Char} (hall : line.all isWsCh = true)
    (i : Nat) : isWordAt line i = false := by
  unfold isWordAt testAt
  cases hg : line.get? i with
  | none => rfl
  | some c => exact ws_not_word c (wsline_get? hall hg)

theorem wsline_boundary {line : List Char} (hall : line.all isWsCh = true)
    (i : Nat) : boundary line i = false := by
  unfold boundary
  rw [wsline_isWordAt hall, wsline_isWordAt hall]
  simp

theorem wsline_lit_false {line : List Char} (hall : line.all isWsCh = true)
    {c : Char} (hc : isWsCh c = false) (i : Nat) (cs : List Char) :
    litAt line i (c :: cs) = false := by
  cases h : litAt line i (c :: cs) with
  | false => rfl
  | true =>
    obtain ⟨h1, _⟩ := litAt_split h
    rw [wsline_get? hall h1] at hc
    exact Bool.noConfusion hc

theorem wsline_get?_ne {line : List Char} (hall : line.all isWsCh = true)
    {c : Char} (hc : isWsCh c = false) (i : Nat) :
    (line.get? i == some c) = false := by
  cases hg : line.get? i with
  | none => rfl
  | some d =>
    cases hb : (some d == some c) with
    | false => rfl
    | true =>
      have : d = c := by simpa using eq_of_beq hb
      rw [this.symm] at hc
      rw [wsline_get? hall hg] at hc
      exact Bool.noConfusion hc

theorem wsline_matchAt {line : List Char} (hall : line.all isWsCh = true) :
    ∀ (r : RegexId) (i : Nat), matchAt r line i = none := by
  intro r i
  cases r with
  | commentR =>
    simp only [matchAt]
    unfold matchComment
    rw [wsline_lit_false hall (by decide) i]
    rfl
  | numberR =>
    simp only [matchAt]
    unfold matchNumber
    rw [wsline_boundary hall]
    rfl
  | dquoteR =>
    simp only [matchAt]
    unfold matchLit1
    rw [wsline_get?_ne hall (by decide) i]
    rfl
  | escapeR =>
    simp only [matchAt]
    unfold matchEscape
    rw [wsline_get?_ne hall (by decide) i]
    rfl
  | constantR =>
    simp only [matchAt]
    unfold altWordAt
    rw [wsline_boundary hall]
    rfl
  | typeR =>
    simp only [matchAt]
    unfold altWordAt
    rw [wsline_boundary hall]
    rfl
  | operatorR =>
    simp only [matchAt]
    unfold altWordAt
    rw [wsline_boundary hall]
    rfl
  | keywordR =>
    simp only [matchAt]
    unfold altWordAt
    rw [wsline_boundary hall]
    rfl
  | fnBeginR =>
    simp only [matchAt]
    unfold matchFnBegin
    rw [wsline_lit_false hall (by decide) i]
    rfl
  | lbraceR =>
    simp only [matchAt]
    unfold matchLit1
    rw [wsline_get?_ne hall (by decide) i]
    rfl
  | letBeginR =>
    simp only [matchAt]
    unfold matchLetBegin
    rw [wsline_lit_false hall (by decide) i]
    rfl
  | eqR =>
    simp only [matchAt]
    unfold matchLit1
    rw [wsline_get?_ne hall (by decide) i]
    rfl

theorem wsline_findFromAux {line : List Char} (hall : line.all isWsCh = true)
    (r : RegexId) : ∀ (fuel i : Nat), findFromAux r line fuel i = none := by
  intro fuel
  induction fuel with
  | zero => intro i; rfl
  | succ f ih =>
    intro i
    unfold findFromAux
    rw [wsline_matchAt hall r i]
    cases Nat.decLt i line.length with
    | isTrue h => rw [if_pos h]; exact ih (i + 1)
    | isFalse h => rw [if_neg h]

theorem wsline_candFindFrom {line : List Char} (hall : line.all isWsCh = true)
    (i : Nat) : ∀ c : Cand, candFindFrom line i c = none := by
  intro c
  cases c with
  | pat p =>
    cases p with
    | simpleMatch s r => exact wsline_findFromAux hall r _ i
    | beginEnd rs rb re bc inner => exact wsline_findFromAux hall rb _ i
    | Include n => rfl
  | endOf p =>
    cases p with
    | simpleMatch s r => rfl
    | beginEnd rs rb re bc inner => exact wsline_findFromAux hall re _ i
    | Include n => rfl

theorem wsline_bestMatch {line : List Char} (hall : line.all isWsCh = true)
    (i : Nat) : ∀ cs : List Cand, bestMatch line i cs = none := by
  intro cs
  induction cs with
  | nil => rfl
  | cons c0 cs ih =>
    unfold bestMatch
    rw [wsline_candFindFrom hall i c0, ih]

/-! The set of patterns reachable during a Bau scan, and the scopes they can
emit. -/

theorem resolveAll_top_eq :
    resolveAll bauRepository bauTopLevelPatterns =
      [commentPattern, functionDeclaration, letStatement, numberPattern,
       stringPattern, constantPattern, keywordPattern] := rfl

theorem innerOf_grammar :
    ∀ p, grammarPat p →
      ∀ q ∈ resolveAll bauRepository (innerOf p), grammarPat q := by
  intro p hp q hq
  rcases hp with rfl | rfl | rfl | rfl | rfl | rfl | rfl | rfl
  · have h : resolveAll bauRepository (innerOf commentPattern) = [] := rfl
    rw [h] at hq; exact absurd hq (List.not_mem_nil q)
  · have h : resolveAll bauRepository (innerOf functionDeclaration) = [] := rfl
    rw [h] at hq; exact absurd hq (List.not_mem_nil q)
  · have h : resolveAll bauRepository (innerOf letStatement) = [] := rfl
    rw [h] at hq; exact absurd hq (List.not_mem_nil q)
  · have h : resolveAll bauRepository (innerOf numberPattern) = [] := rfl
    rw [h] at hq; exact absurd hq (List.not_mem_nil q)
  · have h : resolveAll bauRepository (innerOf stringPattern) =
        [escapePattern] := rfl
    rw [h] at hq
    have := List.mem_cons.mp hq
    simp only [List.not_mem_nil, or_false] at this
    subst this
    unfold grammarPat
    tauto
  · have h : resolveAll bauRepository (innerOf constantPattern) = [] := rfl
    rw [h] at hq; exact absurd hq (List.not_mem_nil q)
  · have h : resolveAll bauRepository (innerOf keywordPattern) = [] := rfl
    rw [h] at hq; exact absurd hq (List.not_mem_nil q)
  · have h : resolveAll bauRepository (innerOf escapePattern) = [] := rfl
    rw [h] at hq; exact absurd hq (List.not_mem_nil q)

theorem activeCands_grammar (stack : List Pattern) (pushed : Bool) (c : Cand)
    (hstack : ∀ p ∈ stack, grammarPat p)
    (hc : c ∈ activeCands bauRepository bauTopLevelPatterns stack pushed) :
    (∃ p, c = Cand.pat p ∧ grammarPat p) ∨ ∃ p, c = Cand.endOf p := by
  cases stack with
  | nil =>
    left
    simp only [activeCands, List.mem_map] at hc
    obtain ⟨p, hp, hcp⟩ := hc
    rw [resolveAll_top_eq] at hp
    refine ⟨p, hcp.symm, ?_⟩
    simp only [List.mem_cons, List.not_mem_nil, or_false] at hp
    unfold grammarPat
    tauto
  | cons top rest =>
    have htop := hstack top (List.mem_cons_self _ _)
    have hinner := innerOf_grammar top htop
    simp only [activeCands] at hc
    cases pushed with
    | true =>
      simp only [if_pos] at hc
      left
      rw [List.mem_map] at hc
      obtain ⟨p, hp, hcp⟩ := hc
      exact ⟨p, hcp.symm, hinner p hp⟩
    | false =>
      simp only [Bool.false_eq_true, if_neg] at hc
      rcases List.mem_cons.mp hc with rfl | hmem
      · exact Or.inr ⟨top, rfl⟩
      · left
        rw [List.mem_map] at hmem
        obtain ⟨p, hp, hcp⟩ := hmem
        exact ⟨p, hcp.symm, hinner p hp⟩

theorem captureRanges_scope {bindings : List (Nat × String)}
    {caps : List (Nat × Nat × Nat)} {r : ScopedRange}
    (h : r ∈ captureRanges bindings caps) : ∃ g, (g, r.2.2) ∈ bindings := by
  unfold captureRanges at h
  rw [List.mem_filterMap] at h
  obtain ⟨b, hb, hfb⟩ := h
  cases hfind : caps.find? (fun t => t.1 == b.1) with
  | none => rw [hfind] at hfb; exact Option.noConfusion hfb
  | some t =>
    rw [hfind] at hfb
    cases hfb
    exact ⟨b.1, by simpa using hb⟩

theorem grammarPat_simple_scope {scope : String} {r : RegexId}
    (h : grammarPat (Pattern.simpleMatch scope r)) :
    scope ≠ "storage.type.bau" := by
  rcases h with h | h | h | h | h | h | h | h <;>
    simp only [commentPattern, functionDeclaration, letStatement,
      numberPattern, stringPattern, constantPattern, keywordPattern,
      escapePattern] at h <;>
    first
      | exact Pattern.noConfusion h
      | (injection h with h1 h2; subst h1; decide)

theorem grammarPat_bindings {rsc : Option String} {rb re : RegexId}
    {bc : List (Nat × String)} {inner : List Pattern}
    (h : grammarPat (Pattern.beginEnd rsc rb re bc inner)) :
    ∀ g s, (g, s) ∈ bc → s ≠ "storage.type.bau" := by
  intro g s hm
  rcases h with h | h | h | h | h | h | h | h <;>
    simp only [commentPattern, functionDeclaration, letStatement,
      numberPattern, stringPattern, constantPattern, keywordPattern,
      escapePattern] at h <;>
    first
      | exact Pattern.noConfusion h
      | (injection h with h1 h2 h3 h4 h5; subst h4; revert hm;
         intro hm;
         first
           | exact absurd hm (List.not_mem_nil _)
           | (simp only [List.mem_cons, List.not_mem_nil, or_false,
                Prod.mk.injEq] at hm;
              rcases hm with ⟨_, rfl⟩ | ⟨_, rfl⟩ | ⟨_, rfl⟩ <;> decide))

theorem scanLineLoop_scopes :
    ∀ (fuel : Nat) (line : List Char) (i : Nat) (stack : List Pattern)
      (pushed : Bool) (rs : List ScopedRange) (st : List Pattern),
      (∀ p ∈ stack, grammarPat p) →
      scanLineLoop bauRepository bauTopLevelPatterns fuel line i stack
        pushed = some (rs, st) →
      (∀ r ∈ rs, r.2.2 ≠ "storage.type.bau") ∧ ∀ p ∈ st, grammarPat p := by
  intro fuel
  induction fuel with
  | zero => intro line i stack pushed rs st _ h; exact Option.noConfusion h
  | succ f ih =>
    intro line i stack pushed rs st hstack h
    unfold scanLineLoop at h
    cases hbm : bestMatch line i
        (activeCands bauRepository bauTopLevelPatterns stack pushed) with
    | none =>
      rw [hbm] at h
      cases h
      exact ⟨by simp, hstack⟩
    | some cm =>
      obtain ⟨c, m⟩ := cm
      rw [hbm] at h
      have hmem := (bestMatch_spec _ c m hbm).1
      rcases activeCands_grammar stack pushed c hstack hmem with
        ⟨p, rfl, hgp⟩ | ⟨p, rfl⟩
      · cases p with
        | simpleMatch scope r =>
          change Option.map
              (fun v => (((m.start, m.stop, scope) : ScopedRange) :: v.1, v.2))
              (scanLineLoop bauRepository bauTopLevelPatterns f line m.stop
                stack pushed) = some (rs, st) at h
          obtain ⟨v, hv, hfv⟩ := Option.map_eq_some'.mp h
          have hrs : ((m.start, m.stop, scope) : ScopedRange) :: v.1 = rs :=
            congrArg Prod.fst hfv
          have hst : v.2 = st := congrArg Prod.snd hfv
          obtain ⟨ih1, ih2⟩ := ih line m.stop stack pushed v.1 v.2 hstack hv
          constructor
          · intro rng hrng
            rw [← hrs] at hrng
            rcases List.mem_cons.mp hrng with rfl | hmem2
            · exact grammarPat_simple_scope hgp
            · exact ih1 rng hmem2
          · exact hst ▸ ih2
        | beginEnd rsc rb re bc inner =>
          change Option.map
              (fun v => (captureRanges bc m.caps ++ v.1, v.2))
              (scanLineLoop bauRepository bauTopLevelPatterns f line m.stop
                (Pattern.beginEnd rsc rb re bc inner :: stack) true) =
            some (rs, st) at h
          obtain ⟨v, hv, hfv⟩ := Option.map_eq_some'.mp h
          have hrs : captureRanges bc m.caps ++ v.1 = rs :=
            congrArg Prod.fst hfv
          have hst : v.2 = st := congrArg Prod.snd hfv
          have hstack2 : ∀ q ∈ Pattern.beginEnd rsc rb re bc inner :: stack,
              grammarPat q := by
            intro q hq
            rcases List.mem_cons.mp hq with rfl | hq2
            · exact hgp
            · exact hstack q hq2
          obtain ⟨ih1, ih2⟩ := ih line m.stop _ true v.1 v.2 hstack2 hv
          constructor
          · intro rng hrng
            rw [← hrs] at hrng
            rcases List.mem_append.mp hrng with hcap | hmem2
            · obtain ⟨g, hg⟩ := captureRanges_scope hcap
              exact grammarPat_bindings hgp g _ hg
            · exact ih1 rng hmem2
          · exact hst ▸ ih2
        | Include n =>
          change some (([] : List ScopedRange), stack) = some (rs, st) at h
          cases h
          exact ⟨by simp, hstack⟩
      · have hstack2 : ∀ q ∈ stack.tail, grammarPat q := by
          intro q hq
          exact hstack q (List.mem_of_mem_tail hq)
        exact ih line m.stop stack.tail pushed rs st hstack2 h

theorem bauScanLine_scopes (line : List Char) (stack : List Pattern)
    (hstack : ∀ p ∈ stack, grammarPat p) :
    (∀ r ∈ (bauScanLine line stack).1, r.2.2 ≠ "storage.type.bau") ∧
    ∀ p ∈ (bauScanLine line stack).2, grammarPat p := by
  unfold bauScanLine scanLine
  cases hl : scanLineLoop bauRepository bauTopLevelPatterns
      (line.length + 1) line 0 stack false with
  | none =>
    simp only [Option.getD]
    exact ⟨by simp, hstack⟩
  | some v =>
    simp only [Option.getD]
    exact scanLineLoop_scopes _ line 0 stack false v.1 v.2 hstack
      (by rw [hl])

theorem tokenizeLoop_scopes :
    ∀ (lines : List (List Char)) (idx : Nat) (stack : List Pattern),
      (∀ p ∈ stack, grammarPat p) →
      ∀ e ∈ tokenizeLoop lines idx stack, ∀ r ∈ e.2,
        r.2.2 ≠ "storage.type.bau" := by
  intro lines
  induction lines with
  | nil => intro idx stack _ e he; exact absurd he (List.not_mem_nil e)
  | cons l ls ih =>
    intro idx stack hstack e he
    obtain ⟨h1, h2⟩ := bauScanLine_scopes l stack hstack
    unfold tokenizeLoop at he
    rcases List.mem_cons.mp he with rfl | hmem
    · intro r hr; exact h1 r hr
    · exact ih (idx + 1) (bauScanLine l stack).2 h2 e hmem

/-! The claims. -/

/-- Claim C1, counterexample: scanning `let int x =` from the empty
RegionStack does not return an empty RegionStack — the end pattern `=` is
not evaluated on the line containing the begin match, so the let-statement
region stays open. -/
theorem c1_counterexample :
    (bauScanLine ("let int x =".toList) []).2 ≠ ([] : List Pattern) := by
  intro h
  have h1 : (bauScanLine ("let int x =".toList) []).2.length = 1 := rfl
  rw [h] at h1
  exact Nat.noConfusion h1

/-- Claim C1 (amended): for the input line `let int x =` scanned from an
empty RegionStack the let-statement begin pattern fires and emits exactly
the three capture ScopedRanges — `let` with keyword.other.let.bau, `int`
with entity.name.type.bau, `x` with variable.name.bau — and a region for
the let-statement pattern is pushed; the end pattern `=` is not evaluated
against the remainder of the begin line, so the region remains open and the
RegionStack returned for this line is exactly the pushed let-statement
region. -/
theorem c1_let_line_scan :
    bauScanLine ("let int x =".toList) [] =
      ([(0, 3, "keyword.other.let.bau"), (4, 7, "entity.name.type.bau"),
        (8, 9, "variable.name.bau")], [letStatement]) := rfl

/-- Claim C2: the Scanner never offers a region's end regex as a candidate
on the line that opened the region (after a push the candidate list holds
ordinary patterns only), and consequently once a region has been pushed
during a line — the loop continuing with the region on the stack and the
pushed flag set — the stack as of the push is a suffix of the RegionStack
`scanLine` returns for that line, so the opened region is still on it. -/
theorem c2_end_regex_deferred :
    (∀ (stack : List Pattern) (c : Cand),
      c ∈ activeCands bauRepository bauTopLevelPatterns stack true →
      ∀ p, c ≠ Cand.endOf p) ∧
    ∀ (fuel : Nat) (line : List Char) (i : Nat) (p : Pattern)
      (stack : List Pattern) (rs : List ScopedRange) (st : List Pattern),
      scanLineLoop bauRepository bauTopLevelPatterns fuel line i
        (p :: stack) true = some (rs, st) →
      (p :: stack).IsSuffix st := by
  constructor
  · intro stack c hc p hp
    obtain ⟨q, hq⟩ := activeCands_pushed_pat bauRepository
      bauTopLevelPatterns stack c hc
    rw [hp] at hq
    exact Cand.noConfusion hq
  · intro fuel line i p stack rs st h
    exact scanLineLoop_pushed_suffix bauRepository bauTopLevelPatterns
      fuel line i (p :: stack) rs st h

/-- Witness for C2 at a concrete input: the loop entered just after a push
of the let-statement region on the empty line returns that region, which is
a suffix of itself. -/
theorem c2_end_regex_deferred_witness :
    (scanLineLoop bauRepository bauTopLevelPatterns 1 [] 0 [letStatement]
      true = some ([], [letStatement])) ∧
    ([letStatement] : List Pattern).IsSuffix [letStatement] :=
  ⟨rfl, c2_end_regex_deferred.2 1 [] 0 letStatement [] [] [letStatement] rfl⟩

/-- Claim C3, counterexample: the repository holds three begin/end
patterns, not two — the `string` rule is also a begin/end region. -/
theorem c3_counterexample :
    repoBeginEnds = [stringPattern, functionDeclaration, letStatement] ∧
    repoBeginEnds.length ≠ 2 := ⟨rfl, by decide⟩

/-- Claim C3 (amended): the grammar's rule set contains exactly three
begin/end constructs — string, function-declaration and let-statement — and
no other Repository entry is a begin/end region; the function-declaration
and let-statement regions define no scope beyond the boundary itself, while
the string region carries the region scope string.quoted.double.bau. -/
theorem c3_begin_end_constructs :
    repoBeginEnds = [stringPattern, functionDeclaration, letStatement] ∧
    regionScopeOf functionDeclaration = none ∧
    regionScopeOf letStatement = none ∧
    regionScopeOf stringPattern = some "string.quoted.double.bau" :=
  ⟨rfl, rfl, rfl, rfl⟩

/-- Claim C4: on `fn main() -> int \x7b` scanned from the empty RegionStack
the function-declaration begin pattern matches the span `fn main() -> int`
(offsets 0–16) and scanning emits exactly the capture ScopedRanges for `fn`
(keyword.other.fn.bau), `main` (entity.name.function.bau) and `int`
(entity.name.type.bau), pushing a RegionStack entry for the
function-declaration pattern. -/
theorem c4_fn_line_scan :
    findFrom RegexId.fnBeginR ("fn main() -> int \x7b".toList) 0 =
      some ⟨0, 16, [(1, 0, 2), (2, 3, 7), (3, 7, 9), (4, 9, 13),
        (5, 13, 16)]⟩ ∧
    bauScanLine ("fn main() -> int \x7b".toList) [] =
      ([(0, 2, "keyword.other.fn.bau"), (3, 7, "entity.name.function.bau"),
        (13, 16, "entity.name.type.bau")], [functionDeclaration]) :=
  ⟨rfl, rfl⟩

/-- Claim C5: on `true && false` scanned from the empty RegionStack exactly
two ScopedRanges are produced, both constant.language.bau, covering `true`
and `false`; the `&&` between them receives no scope — the operator rule
group exists in the Repository but no include in the grammar references
it. -/
theorem c5_true_false_scan :
    bauScanLine ("true && false".toList) [] =
      ([(0, 4, "constant.language.bau"), (8, 13, "constant.language.bau")],
       []) ∧
    lookupGroup bauRepository "operator" = some [operatorPattern] ∧
    (allIncludeNamesD (bauRepository.length + 1)
      (bauTopLevelPatterns ++
        (bauRepository.map (fun e => e.2)).flatten)).contains "operator" =
      false := ⟨rfl, rfl, rfl⟩

/-- Claim C6: loading the Bau grammar succeeds — every include reachable
from the top-level pattern list names an existing Repository entry and no
rule group includes itself transitively, so `load` returns neither
UnknownRuleGroup nor CyclicInclude, and `resolve` succeeds on each of the
seven top-level names. -/
theorem c6_load_succeeds :
    load bauRepository bauTopLevelPatterns = Except.ok () ∧
    resolve bauRepository "comment" = Except.ok [commentPattern] ∧
    resolve bauRepository "function-declaration" =
      Except.ok [functionDeclaration] ∧
    resolve bauRepository "let-statement" = Except.ok [letStatement] ∧
    resolve bauRepository "number" = Except.ok [numberPattern] ∧
    resolve bauRepository "string" = Except.ok [stringPattern] ∧
    resolve bauRepository "constant" = Except.ok [constantPattern] ∧
    resolve bauRepository "keyword" = Except.ok [keywordPattern] :=
  ⟨rfl, rfl, rfl, rfl, rfl, rfl, rfl, rfl⟩

/-- Claim C7: no regex of the grammar matches empty text — every anchored
match strictly advances past its start and stays within the line — and
therefore `scanLineLoop` terminates for every line, cursor position and
RegionStack state within fuel proportional to the remaining line length
(never returning the out-of-fuel marker `none`). -/
theorem c7_progress :
    (∀ (r : RegexId) (line : List Char) (i j : Nat) (caps : Captures),
      matchAt r line i = some (j, caps) → i < j ∧ j ≤ line.length) ∧
    ∀ (line : List Char) (i : Nat) (stack : List Pattern) (pushed : Bool),
      i ≤ line.length →
      scanLineLoop bauRepository bauTopLevelPatterns
        (line.length + 1 - i) line i stack pushed ≠ none :=
  ⟨matchAt_bounds,
   fun line i stack pushed hi =>
     scanLineLoop_suff bauRepository bauTopLevelPatterns
       (line.length + 1 - i) line i stack pushed hi (Nat.le_refl _)⟩

/-- Witness for C7 at a concrete input: the `=` regex matches one character
of the line `=`, and the scanner loop on that line completes within its
fuel. -/
theorem c7_progress_witness :
    (matchAt RegexId.eqR ['='] 0 = some (1, []) ∧
      0 < 1 ∧ 1 ≤ (['='] : List Char).length) ∧
    (0 ≤ (['='] : List Char).length ∧
      scanLineLoop bauRepository bauTopLevelPatterns
        ((['='] : List Char).length + 1 - 0) ['='] 0 [] false ≠ none) :=
  ⟨⟨rfl, c7_progress.1 RegexId.eqR ['='] 0 1 [] rfl⟩,
   ⟨by decide, c7_progress.2 ['='] 0 [] false (by decide)⟩⟩

/-- Claim C8: whenever the Scanner's selection returns a winner among the
active candidates, the winner's match starts at the smallest offset of any
candidate's match, and every candidate declared earlier than the winner
either fails to match or matches strictly later — the declared order is the
tie-break. -/
theorem c8_priority_order :
    ∀ (line : List Char) (i : Nat) (stack : List Pattern) (pushed : Bool)
      (c : Cand) (m : MatchInfo),
      bestMatch line i
        (activeCands bauRepository bauTopLevelPatterns stack pushed) =
        some (c, m) →
      (∀ c' ∈ activeCands bauRepository bauTopLevelPatterns stack pushed,
        ∀ m', candFindFrom line i c' = some m' → m.start ≤ m'.start) ∧
      ∃ k, (activeCands bauRepository bauTopLevelPatterns stack
          pushed).get? k = some c ∧
        ∀ j c' m', j < k →
          (activeCands bauRepository bauTopLevelPatterns stack
            pushed).get? j = some c' →
          candFindFrom line i c' = some m' → m.start < m'.start :=
  fun line i stack pushed c m h =>
    ⟨bestMatch_min _ c m h, bestMatch_tie _ c m h⟩

/-- Witness for C8 at a concrete input: on the line `=` inside an open
let-statement region the pop-check wins, and its match at offset 0 is
minimal among all candidates. -/
theorem c8_priority_order_witness :
    (bestMatch ['='] 0
      (activeCands bauRepository bauTopLevelPatterns [letStatement]
        false) = some (Cand.endOf letStatement, ⟨0, 1, []⟩)) ∧
    ∀ c' ∈ activeCands bauRepository bauTopLevelPatterns [letStatement]
        false,
      ∀ m', candFindFrom ['='] 0 c' = some m' →
        (⟨0, 1, []⟩ : MatchInfo).start ≤ m'.start :=
  ⟨rfl,
   (c8_priority_order ['='] 0 [letStatement] false
     (Cand.endOf letStatement) ⟨0, 1, []⟩ rfl).1⟩

/-- Claim C9: for every RegionStack state, scanning a line consisting only
of whitespace produces zero ScopedRanges and returns the RegionStack
unchanged. -/
theorem c9_whitespace_frame :
    ∀ (line : List Char) (stack : List Pattern),
      line.all isWsCh = true → bauScanLine line stack = ([], stack) := by
  intro line stack hall
  unfold bauScanLine scanLine scanLineLoop
  rw [wsline_bestMatch hall 0]
  rfl

/-- Witness for C9 at a concrete input: a single-space line with an open
let-statement region on the stack. -/
theorem c9_whitespace_frame_witness :
    ((([' '] : List Char).all isWsCh) = true) ∧
    bauScanLine [' '] [letStatement] = ([], [letStatement]) :=
  ⟨rfl, c9_whitespace_frame [' '] [letStatement] rfl⟩

/-- Claim C10: the `type` rule group (scope storage.type.bau) exists in the
Repository but no include anywhere in the grammar — top-level list or any
begin/end pattern's inner patterns — references it, and consequently no
ScopedRange produced by `tokenize` on any document ever carries the scope
storage.type.bau. -/
theorem c10_type_group_unreachable :
    lookupGroup bauRepository "type" = some [typePattern] ∧
    (allIncludeNamesD (bauRepository.length + 1)
      (bauTopLevelPatterns ++
        (bauRepository.map (fun e => e.2)).flatten)).contains "type" =
      false ∧
    ∀ (lines : List (List Char)) (e : Nat × List ScopedRange)
      (r : ScopedRange), e ∈ tokenize lines → r ∈ e.2 →
      r.2.2 ≠ "storage.type.bau" :=
  ⟨rfl, rfl,
   fun lines e r he hr =>
     tokenizeLoop_scopes lines 0 []
       (fun p hp => absurd hp (List.not_mem_nil p)) e he r hr⟩

/-- Witness for C10 at a concrete input: the single-line document `true`
yields the constant range, whose scope is not storage.type.bau. -/
theorem c10_type_group_unreachable_witness :
    ((0, [((0, 4, "constant.language.bau") : ScopedRange)]) ∈
      tokenize [['t', 'r', 'u', 'e']]) ∧
    (((0, 4, "constant.language.bau") : ScopedRange) ∈
      [((0, 4, "constant.language.bau") : ScopedRange)]) ∧
    "constant.language.bau" ≠ "storage.type.bau" :=
  ⟨by decide, by decide,
   c10_type_group_unreachable.2.2 [['t', 'r', 'u', 'e']]
     (0, [((0, 4, "constant.language.bau") : ScopedRange)])
     ((0, 4, "constant.language.bau") : ScopedRange) (by decide)
     (by decide)⟩
